import Mathlib

/-!
Verification of the filesystem-synchronized, cached vector search engine
(`sem7/lab1/search_engine.py`, class `VectorSearchEngine`).

Shallow embedding conventions:
* Paths, file contents and digests are `List Char` (Python `str`).
* The SHA-256 digest is modelled by an injective, never-empty function
  `hashContent` (the spec only relies on the digest distinguishing distinct
  contents; cryptographic details are irrelevant to the claims).  The digest is
  never the empty string, matching the fact that a real hex digest is never
  falsy, so Python's `if not new_hash: continue` fires exactly on `None`.
* The filesystem seen by one call is a snapshot: `FS.rootExists` models whether
  `os.walk` can enumerate the root (a missing/inaccessible root makes `os.walk`
  yield nothing, its default `onerror=None` swallowing the error), and
  `FS.files` are the walked entries, `content = none` meaning the file cannot
  be opened/read (hashing and snippet reads fail on it).
* Python `dict`s are association lists with Python's ordering semantics:
  updating an existing key rewrites it in place, a new key is appended,
  deletion preserves the order of the remaining entries.
* `TfidfVectorizer.fit_transform` is a third-party call; the matrix it returns
  is a deterministic function of the ordered list of (path, content) pairs it
  reads, so the model stores exactly that list: one row per path, in order.
  Reading an unreadable path inside `fit_transform` raises `IOError`; `sync`
  returning `none` in its second component models an escaped exception.
-/

/-- Python `str` as a list of characters. -/
def chars (s : String) : List Char := s.data

/-- A file met by `os.walk`: its joined path and its byte content, `none` when
the file cannot be opened for reading. -/
structure FileEntry where
  path : List Char
  content : Option (List Char)
deriving DecidableEq, Repr

/-- Snapshot of the directory tree under the sync root. -/
structure FS where
  rootExists : Bool
  files : List FileEntry
deriving DecidableEq, Repr

/-- The preprocessor currently installed on the `TfidfVectorizer`: either the
file-reading `preprocess_filepath` installed by `__init__`, or the temporary
`lambda x: x` installed during `search`. -/
inductive Preproc where
  | filepathPre : Preproc
  | identityPre : Preproc
deriving DecidableEq, Repr

/-- One TF-IDF matrix row is determined by its document's path and the content
read for it at rebuild time (the whole matrix is a function of all rows). -/
abbrev MatrixRow := List Char × List Char

/-- The mutable state of a `VectorSearchEngine` instance. -/
structure EngineState where
  cache_path : List Char
  vectorizerPreproc : Preproc
  tfidf_matrix : Option (List MatrixRow)
  idx_to_filepath : List (Nat × List Char)
  file_hashes : List (List Char × List Char)
  file_metadata : List (List Char × List Char)
deriving DecidableEq, Repr

/-- `VectorSearchEngine.__init__`. -/
def initEngine (cachePath : List Char) : EngineState :=
  { cache_path := cachePath
    vectorizerPreproc := .filepathPre
    tfidf_matrix := none
    idx_to_filepath := []
    file_hashes := []
    file_metadata := [] }

/-- Ideal model of `hashlib.sha256(...).hexdigest()`: injective and never the
empty string (a real hex digest is 64 characters). -/
def hashContent (c : List Char) : List Char := 'h' :: c

/-- Python `dict` lookup on an association list. -/
def lookupKey {α β : Type} [DecidableEq α] (p : α) : List (α × β) → Option β
  | [] => none
  | (q, v) :: t => if q = p then some v else lookupKey p t

/-- Python `dict` assignment `d[p] = v`: rewrite in place, else append. -/
def setKey {α β : Type} [DecidableEq α] (p : α) (v : β) :
    List (α × β) → List (α × β)
  | [] => [(p, v)]
  | (q, w) :: t => if q = p then (q, v) :: t else (q, w) :: setKey p v t

/-- Boolean set membership (`filepath in current_files`). -/
def memKey {α : Type} [DecidableEq α] (p : α) : List α → Bool
  | [] => false
  | q :: t => if q = p then true else memKey p t

/-- `filename.endswith(".txt")` (on the joined path, which ends in the
filename, so the two tests agree). -/
def isTxtPath (p : List Char) : Bool := (chars ".txt").isSuffixOf p

/-- The files produced by `os.walk(root_folder)` restricted to the `.txt`
allow-list (lines 96-100).  A missing root yields nothing: `os.walk` with its
default `onerror=None` silently swallows the error on the root itself. -/
def walkFiles (fs : FS) : List FileEntry :=
  if fs.rootExists then fs.files.filter (fun e => isTxtPath e.path) else []

/-- `VectorSearchEngine._get_file_hash` (lines 40-51): `none` models the
`except (IOError, OSError): return None` branch. -/
def getFileHash (e : FileEntry) : Option (List Char) :=
  e.content.map hashContent

/-- `open(filepath).read()` against the snapshot, by path. -/
def readFs (fs : FS) (p : List Char) : Option (List Char) :=
  ((fs.files.find? (fun e => e.path = p)).bind (fun e => e.content))

/-- One iteration of the walk loop body (lines 97-108), threading
`(file_hashes, changed)`. -/
def scanStep (acc : List (List Char × List Char) × Bool) (e : FileEntry) :
    List (List Char × List Char) × Bool :=
  match getFileHash e with
  | none => acc
  | some h =>
    match lookupKey e.path acc.1 with
    | some old => if old = h then acc else (setKey e.path h acc.1, true)
    | none => (setKey e.path h acc.1, true)

/-- The whole walk loop (lines 93-108) starting from `changed = False`. -/
def scanPhase (hs : List (List Char × List Char)) (walked : List FileEntry) :
    List (List Char × List Char) × Bool :=
  walked.foldl scanStep (hs, false)

/-- Lines 92-115: hash scan, then deletion of vanished paths; returns the
engine with the updated digest table together with the `changed` flag. -/
def syncScan (st : EngineState) (fs : FS) : EngineState × Bool :=
  let walked := walkFiles fs
  let sc := scanPhase st.file_hashes walked
  let current := walked.map (fun e => e.path)
  let hs2 := sc.1.filter (fun e => memKey e.1 current)
  let anyDead := sc.1.any (fun e => !(memKey e.1 current))
  ({ st with file_hashes := hs2 }, sc.2 || anyDead)

/-- Lexicographic `Bool`-valued comparison on Python strings (code points),
the order used by `sorted(...)`. -/
def pathLe : List Char → List Char → Bool
  | [], _ => true
  | _ :: _, [] => false
  | a :: as, b :: bs => if a = b then pathLe as bs else decide (a < b)

/-- Insert into a `pathLe`-sorted list. -/
def insertPath (x : List Char) : List (List Char) → List (List Char)
  | [] => [x]
  | y :: ys => if pathLe x y then x :: y :: ys else y :: insertPath x ys

/-- `sorted(list(self.file_hashes.keys()))`. -/
def sortPaths (l : List (List Char)) : List (List Char) :=
  l.foldr insertPath []

/-- `os.path.basename`. -/
def baseName (p : List Char) : List Char :=
  ((p.reverse).takeWhile (fun c => c ≠ '/')).reverse

/-- Lines 118-128: the full rebuild.  `none` models the `IOError` escaping
from `fit_transform` when `preprocess_filepath` opens an unreadable file; in
that case the matrix, row map and metadata keep their previous values. -/
def rebuildIndex (st : EngineState) (fs : FS) : Option EngineState :=
  let allPaths := sortPaths (st.file_hashes.map (fun e => e.1))
  if allPaths.isEmpty then
    some { st with tfidf_matrix := none, idx_to_filepath := [], file_metadata := [] }
  else if allPaths.any (fun p => (readFs fs p).isNone) then
    none
  else
    some { st with
      tfidf_matrix := some (allPaths.map (fun p => (p, (readFs fs p).getD [])))
      idx_to_filepath := allPaths.enum
      file_metadata := allPaths.map (fun p => (p, baseName p)) }

/-- `VectorSearchEngine.sync_index_with_filesystem` (lines 87-133).  The
second component is `some changed` on normal return and `none` when an
exception escapes (in which case the first component is the engine state the
caller observes after the partial mutation). -/
def sync (st : EngineState) (fs : FS) : EngineState × Option Bool :=
  let s := syncScan st fs
  if s.2 then
    match rebuildIndex s.1 fs with
    | some st2 => (st2, some true)
    | none => (s.1, none)
  else (s.1, some false)

example :
    sync (initEngine (chars "vector_index.pkl"))
      { rootExists := true, files := [⟨chars "d/a.txt", some (chars "cat")⟩] } =
    ({ initEngine (chars "vector_index.pkl") with
        tfidf_matrix := some [(chars "d/a.txt", chars "cat")]
        idx_to_filepath := [(0, chars "d/a.txt")]
        file_hashes := [(chars "d/a.txt", 'h' :: chars "cat")]
        file_metadata := [(chars "d/a.txt", chars "a.txt")] }, some true) := by
  decide

/-! ## Cache store (`load_from_cache`, `save_to_cache`, lines 53-85) -/

/-- A deserialized cache dict; a field is `none` when its key is absent
(`state['...']` then raises `KeyError`). -/
structure CacheDict where
  vectorizer : Option Preproc
  tfidf : Option (Option (List MatrixRow))
  idx : Option (List (Nat × List Char))
  hashes : Option (List (List Char × List Char))
  metadata : Option (List (List Char × List Char))
deriving DecidableEq, Repr

/-- The artifact at `cache_path` as `load_from_cache` sees it: `none` when
`os.path.exists` is false; `some (.error ())` when `pickle.load` raises
(corrupt bytes, wrong format); `some (.ok d)` when it yields a dict `d`. -/
abbrev CacheFile := Option (Except Unit CacheDict)

/-- `VectorSearchEngine.load_from_cache` (lines 53-68): the five assignments
run in order inside the `try`; the first missing key raises `KeyError`,
which the bare `except Exception` swallows, keeping every assignment already
performed. -/
def loadFromCache (st : EngineState) (c : CacheFile) : EngineState :=
  match c with
  | none => st
  | some (Except.error _) => st
  | some (Except.ok d) =>
    match d.vectorizer with
    | none => st
    | some v =>
      let st1 := { st with vectorizerPreproc := v }
      match d.tfidf with
      | none => st1
      | some m =>
        let st2 := { st1 with tfidf_matrix := m }
        match d.idx with
        | none => st2
        | some ix =>
          let st3 := { st2 with idx_to_filepath := ix }
          match d.hashes with
          | none => st3
          | some hsh =>
            let st4 := { st3 with file_hashes := hsh }
            match d.metadata with
            | none => st4
            | some md => { st4 with file_metadata := md }

/-- Filesystem side effects a cache save can perform. -/
inductive FsOp where
  | writeFile (path : List Char) : FsOp
  | renameFile (src dst : List Char) : FsOp
deriving DecidableEq, Repr

/-- The dict pickled by `save_to_cache` (lines 73-79). -/
def saveBlob (st : EngineState) : CacheDict :=
  { vectorizer := some st.vectorizerPreproc
    tfidf := some st.tfidf_matrix
    idx := some st.idx_to_filepath
    hashes := some st.file_hashes
    metadata := some st.file_metadata }

/-- `VectorSearchEngine.save_to_cache` (lines 70-85): returns the pickled
blob together with the trace of filesystem operations it performs —
`open(self.cache_path, 'wb')` followed by `pickle.dump` writes the final
path directly; there is no temporary file and no rename. -/
def saveToCache (st : EngineState) : CacheDict × List FsOp :=
  (saveBlob st, [FsOp.writeFile st.cache_path])

/-! ## Ranking (`search`, lines 135-167)

`cosine_similarity(query_vector, self.tfidf_matrix).flatten()` is a
third-party call; its output enters the model as the list `sims` of
per-row scores (row order).  `argsort()` is modelled as a stable ascending
insertion sort on (row, score) pairs — numpy's introsort is insertion sort
on small arrays; the slice `[:-top_n - 1:-1]` then takes the last `top_n`
positions of the ascending order, reversed. -/

/-- Insert into an ascending-by-score sorted list, after any equal scores
(stable). -/
def insertScore (x : Nat × ℚ) : List (Nat × ℚ) → List (Nat × ℚ)
  | [] => [x]
  | y :: ys => if x.2 < y.2 then x :: y :: ys else y :: insertScore x ys

/-- Stable ascending argsort of the score list (pairs carry the row index). -/
def argsortAsc (l : List (Nat × ℚ)) : List (Nat × ℚ) :=
  l.foldl (fun acc x => insertScore x acc) []

/-- Lines 150-156: take the `top_n` highest-scoring rows in descending score
order, then keep those with score strictly above the 0.01 threshold. -/
def rank (sims : List ℚ) (topN : Nat) : List (Nat × ℚ) :=
  (((argsortAsc sims.enum).reverse).take topN).filter
    (fun x => decide (mkRat 1 100 < x.2))

/-! ## Snippets (`_generate_snippet`, lines 169-189) -/

/-- Python regex `\w` (ASCII fragment: the corpus and queries are plain
text; `re` word characters are alphanumerics and underscore). -/
def isWordChar (c : Char) : Bool := c.isAlphanum || c = '_'

/-- Word-character test with `none` (out of bounds) counting as non-word. -/
def isWordOpt : Option Char → Bool
  | none => false
  | some c => isWordChar c

/-- Case folding used by `re.IGNORECASE` on plain text. -/
def lowerChars (l : List Char) : List Char := l.map Char.toLower

/-- Regex `\b`: position `p` of `text` lies between a word character and a
non-word character (ends of the text count as non-word). -/
def boundaryAt (text : List Char) (p : Nat) : Bool :=
  isWordOpt (if p = 0 then none else text.get? (p - 1)) != isWordOpt (text.get? p)

/-- `re.search(r'\b' + re.escape(word) + r'\b', text, re.IGNORECASE)` matches
at position `p`: the word occurs there case-insensitively, flanked by word
boundaries. -/
def matchAt (text w : List Char) (p : Nat) : Bool :=
  decide (p + w.length ≤ text.length) &&
  decide (lowerChars ((text.drop p).take w.length) = lowerChars w) &&
  boundaryAt text p && boundaryAt text (p + w.length)

/-- The regex engine's left-to-right scan from position `p` with `fuel`
positions left to try. -/
def searchFrom (text w : List Char) : Nat → Nat → Option Nat
  | _, 0 => none
  | p, Nat.succ fuel => if matchAt text w p then some p else searchFrom text w (p + 1) fuel

/-- `re.search`: the leftmost match position, scanning positions `0..len`. -/
def findMatch (text w : List Char) : Option Nat :=
  searchFrom text w 0 (text.length + 1)

/-- `"..."`. -/
def dots : List Char := chars "..."

/-- `VectorSearchEngine._generate_snippet` (lines 169-189); `lenW` is the
`length` parameter (250 at the call site). -/
def generateSnippet (text : List Char) (queryWords : List (List Char))
    (lenW : Nat) : List Char :=
  match queryWords.findSome? (fun w => findMatch text w) with
  | none => if lenW < text.length then text.take lenW ++ dots else text
  | some p =>
    let start := p - lenW / 2
    let stop := min text.length (p + lenW / 2)
    let core := (text.drop start).take (stop - start)
    let withPre := if 0 < start then dots ++ core else core
    if stop < text.length then withPre ++ dots else withPre

/-! ## The query path (`search`, lines 135-167) -/

/-- One returned hit (the dict built at line 166). -/
structure SearchResult where
  title : List Char
  score : ℚ
  snippet : List Char
  path : List Char
deriving DecidableEq, Repr

/-- Lines 153-167: materialize the ranked rows into result records.  The
lookup `self.idx_to_filepath[i]` always succeeds on library-produced
similarity arrays (one score per row); the model totalizes it with `[]`. -/
def buildResults (st : EngineState) (fs : FS) (sims : List ℚ)
    (qws : List (List Char)) (topN : Nat) : List SearchResult :=
  (rank sims topN).map (fun x =>
    let path := (lookupKey x.1 st.idx_to_filepath).getD []
    let title := (lookupKey path st.file_metadata).getD (baseName path)
    let snip :=
      match readFs fs path with
      | some content => generateSnippet content qws 250
      | none => chars "[Could not read file content for snippet]"
    { title := title, score := x.2, snippet := snip, path := path })

/-- `VectorSearchEngine.search` (lines 135-167) as a state-passing function.
`simsOpt` is the outcome of the third-party `transform`/`cosine_similarity`
calls: `none` models an exception raised inside the `try` (the `finally`
still restores the preprocessor and the exception escapes, so the result
component is `none`); `qws` is `processed_query.split()`. -/
def searchEngine (st : EngineState) (fs : FS) (simsOpt : Option (List ℚ))
    (qws : List (List Char)) (topN : Nat) : EngineState × Option (List SearchResult) :=
  match st.tfidf_matrix with
  | none => (st, some [])
  | some m =>
    if m.isEmpty then (st, some [])
    else
      let orig := st.vectorizerPreproc
      let stSwap := { st with vectorizerPreproc := Preproc.identityPre }
      match simsOpt with
      | none => ({ stSwap with vectorizerPreproc := orig }, none)
      | some sims =>
        let stRest := { stSwap with vectorizerPreproc := orig }
        (stRest, some (buildResults stRest fs sims qws topN))

/-! ## Concrete evaluations and counterexamples -/

/-- C1: the spec requires a missing/inaccessible root to be reported to the
caller of `sync` as a hard error with no partial index.  The code instead
relies on `os.walk`, whose default `onerror=None` silently swallows the
failure on the root: the walk yields nothing, every previously indexed file
is treated as deleted, and the call returns `changed=True` with the whole
index wiped (and then persists the wipe via `save_to_cache`).  This theorem
evaluates the model at a one-file index and a missing root. -/
theorem C1_missing_root_wipes_index :
    (sync
        { initEngine (chars "vector_index.pkl") with
            tfidf_matrix := some [(chars "d/a.txt", chars "cat")]
            idx_to_filepath := [(0, chars "d/a.txt")]
            file_hashes := [(chars "d/a.txt", 'h' :: chars "cat")]
            file_metadata := [(chars "d/a.txt", chars "a.txt")] }
        { rootExists := false, files := [⟨chars "d/a.txt", some (chars "cat")⟩] } =
      ({ initEngine (chars "vector_index.pkl") with
          tfidf_matrix := none
          idx_to_filepath := []
          file_hashes := []
          file_metadata := [] }, some true)) ∧
    (sync
        { initEngine (chars "vector_index.pkl") with
            tfidf_matrix := some [(chars "d/a.txt", chars "cat")]
            idx_to_filepath := [(0, chars "d/a.txt")]
            file_hashes := [(chars "d/a.txt", 'h' :: chars "cat")]
            file_metadata := [(chars "d/a.txt", chars "a.txt")] }
        { rootExists := false, files := [⟨chars "d/a.txt", some (chars "cat")⟩] }).1.file_hashes
      = [] := by
  decide

/-- C5: the spec requires the cache write to go to a temporary location and
then be moved into place.  `save_to_cache` opens `self.cache_path` itself and
pickles straight into it: its filesystem trace is a single direct write of
the final path and contains no rename, so a crash mid-`pickle.dump` leaves a
half-written file at the cache path. -/
theorem C5_save_writes_final_path_directly :
    (saveToCache (initEngine (chars "vector_index.pkl"))).2 =
      [FsOp.writeFile (chars "vector_index.pkl")] ∧
    ((saveToCache (initEngine (chars "vector_index.pkl"))).2.all
      (fun op => match op with
        | FsOp.writeFile _ => true
        | FsOp.renameFile _ _ => false)) = true := by
  decide

/-- C7 counterexample: two rows with equal score 1/2.  `argsort` ascending is
stable (numpy uses insertion sort on a two-element array), but the slice
`[:-top_n - 1:-1]` reverses it, so the equal-score rows come out as
`[1, 0]` — the reverse of the original row order the claim promises. -/
theorem C7_counterexample_tie_order :
    rank [mkRat 1 2, mkRat 1 2] 2 = [(1, mkRat 1 2), (0, mkRat 1 2)] ∧
    (rank [mkRat 1 2, mkRat 1 2] 2).map Prod.fst ≠ [0, 1] := by
  decide

/-- C9 counterexample: with no query term occurring in the text, the claim
says the snippet is exactly the first `windowLength` characters, but the code
appends an ellipsis whenever it truncates (`text[:length] + "..."`). -/
theorem C9_counterexample_fallback_ellipsis :
    generateSnippet (chars "abc") [chars "z"] 2 = chars "ab..." ∧
    generateSnippet (chars "abc") [chars "z"] 2 ≠ chars "ab" := by
  decide

/-- C4 counterexample: a structurally valid pickle whose dict lacks the
`file_hashes` and `file_metadata` keys.  `load_from_cache` assigns
`vectorizer`, `tfidf_matrix` and `idx_to_filepath` before the `KeyError`,
then swallows it: the engine ends with a loaded matrix but empty hash table —
not the state it would have had with no cache file. -/
theorem C4_counterexample_partial_load :
    loadFromCache (initEngine (chars "vector_index.pkl"))
        (some (Except.ok
          { vectorizer := some Preproc.filepathPre
            tfidf := some (some [(chars "a.txt", chars "x")])
            idx := some [(0, chars "a.txt")]
            hashes := none
            metadata := none })) ≠
      loadFromCache (initEngine (chars "vector_index.pkl")) none ∧
    (loadFromCache (initEngine (chars "vector_index.pkl"))
        (some (Except.ok
          { vectorizer := some Preproc.filepathPre
            tfidf := some (some [(chars "a.txt", chars "x")])
            idx := some [(0, chars "a.txt")]
            hashes := none
            metadata := none }))).tfidf_matrix = some [(chars "a.txt", chars "x")] ∧
    (loadFromCache (initEngine (chars "vector_index.pkl")) none).tfidf_matrix = none := by
  decide

/-- C6 counterexample: a file that was indexed in a previous cycle and has
become unreadable.  It is added to `current_files` before hashing, so it is
not treated as deleted, and the failed hash merely skips the update: its old
digest entry survives the cycle, contradicting "no entry to the recorded
digest table"; the call completes normally with `changed=False`. -/
theorem C6_counterexample_stale_digest :
    (sync
        { initEngine (chars "vector_index.pkl") with
            tfidf_matrix := some [(chars "a.txt", chars "x")]
            idx_to_filepath := [(0, chars "a.txt")]
            file_hashes := [(chars "a.txt", 'h' :: chars "x")]
            file_metadata := [(chars "a.txt", chars "a.txt")] }
        { rootExists := true, files := [⟨chars "a.txt", none⟩] }).2 = some false ∧
    lookupKey (chars "a.txt")
      (sync
        { initEngine (chars "vector_index.pkl") with
            tfidf_matrix := some [(chars "a.txt", chars "x")]
            idx_to_filepath := [(0, chars "a.txt")]
            file_hashes := [(chars "a.txt", 'h' :: chars "x")]
            file_metadata := [(chars "a.txt", chars "a.txt")] }
        { rootExists := true, files := [⟨chars "a.txt", none⟩] }).1.file_hashes
      = some ('h' :: chars "x") := by
  decide

/-! ## C10: `search` does not mutate the engine -/

/-- C10: for every engine state and query, `search` leaves the engine state
unchanged — `tfidf_matrix`, `idx_to_filepath`, `file_hashes`, `file_metadata`
and the vectorizer's preprocessor are identical after the call, and the
`finally` block restores the preprocessor even when `transform` raises
(`simsOpt = none`). -/
theorem C10_search_leaves_state_unchanged (st : EngineState) (fs : FS)
    (simsOpt : Option (List ℚ)) (qws : List (List Char)) (topN : Nat) :
    (searchEngine st fs simsOpt qws topN).1 = st := by
  cases st with
  | mk cp v m ix hs md =>
    cases m with
    | none => rfl
    | some rows =>
      cases simsOpt <;>
        simp only [searchEngine] <;> split <;> rfl

/-! ## C8: cache round-trip preserves search results -/

/-- C8: building an index, pickling it with `save_to_cache`, discarding the
in-memory engine (a fresh `VectorSearchEngine`) and loading the blob back
with `load_from_cache` restores every field `search` consults, so the search
results for any query are exactly those of the original engine.  The query
vectorizer and matrix are restored bit-for-bit, so the third-party similarity
computation (`simsOpt`) is the same function of the query for both engines. -/
theorem C8_cache_roundtrip (st : EngineState) (cp : List Char) (fs : FS)
    (simsOpt : Option (List ℚ)) (qws : List (List Char)) (topN : Nat) :
    (searchEngine (loadFromCache (initEngine cp)
        (some (Except.ok (saveToCache st).1))) fs simsOpt qws topN).2 =
      (searchEngine st fs simsOpt qws topN).2 := by
  have h : loadFromCache (initEngine cp) (some (Except.ok (saveToCache st).1)) =
      { st with cache_path := cp } := by
    cases st; rfl
  rw [h]
  cases st with
  | mk cp0 v m ix hs md =>
    cases m with
    | none => rfl
    | some rows =>
      cases simsOpt <;> simp only [searchEngine] <;> split <;> rfl

/-! ## C4 amended: load failures are swallowed, but loads can be partial -/

/-- C4 amended: `load_from_cache` never propagates an error.  A missing cache
file or a failing `pickle.load` leaves the engine exactly as before (a true
cache miss).  A dict carrying all five keys replaces all five fields.  But a
dict missing a later key is only partially applied: assignments made before
the `KeyError` are kept (e.g. with `file_hashes` missing, the vectorizer,
matrix and row map are already overwritten), so the engine need not end in
the no-cache state. -/
theorem C4_load_failure_semantics (st : EngineState) (d : CacheDict) :
    loadFromCache st none = st ∧
    loadFromCache st (some (Except.error ())) = st ∧
    (∀ v m ix hsh md,
      d = ⟨some v, some m, some ix, some hsh, some md⟩ →
      loadFromCache st (some (Except.ok d)) =
        { st with vectorizerPreproc := v, tfidf_matrix := m,
                  idx_to_filepath := ix, file_hashes := hsh,
                  file_metadata := md }) ∧
    (d.vectorizer = none → loadFromCache st (some (Except.ok d)) = st) ∧
    (∀ v m ix,
      d = ⟨some v, some m, some ix, none, d.metadata⟩ →
      loadFromCache st (some (Except.ok d)) =
        { st with vectorizerPreproc := v, tfidf_matrix := m,
                  idx_to_filepath := ix }) := by
  refine ⟨rfl, rfl, ?_, ?_, ?_⟩
  · intro v m ix hsh md hd
    subst hd; rfl
  · intro hv
    simp only [loadFromCache, hv]
  · intro v m ix hd
    rw [hd]; rfl

/-- Witness for C4: the amended theorem applied at a concrete engine and a
concrete blob missing its `file_hashes` key. -/
theorem C4_load_failure_semantics_witness :
    loadFromCache (initEngine (chars "c.pkl"))
        (some (Except.ok ⟨some Preproc.filepathPre, some none, some [], none, none⟩)) =
      { initEngine (chars "c.pkl") with
          vectorizerPreproc := Preproc.filepathPre
          tfidf_matrix := none
          idx_to_filepath := [] } :=
  (C4_load_failure_semantics (initEngine (chars "c.pkl"))
      ⟨some Preproc.filepathPre, some none, some [], none, none⟩).2.2.2.2
    Preproc.filepathPre none [] rfl

/-! ## Ordering lemmas for the ranking pipeline -/

/-- The strict order the stable ascending argsort establishes: by score, and
by original row index among equal scores. -/
def rankOrd (a b : Nat × ℚ) : Prop := a.2 < b.2 ∨ (a.2 = b.2 ∧ a.1 < b.1)

theorem mem_insertScore {a x : Nat × ℚ} {l : List (Nat × ℚ)} :
    a ∈ insertScore x l ↔ a = x ∨ a ∈ l := by
  induction l with
  | nil => simp [insertScore]
  | cons y ys ih =>
    by_cases h : x.2 < y.2
    · simp only [insertScore, if_pos h, List.mem_cons]
    · simp only [insertScore, if_neg h, List.mem_cons, ih]
      tauto

theorem mem_foldl_insertScore {l acc : List (Nat × ℚ)} {a : Nat × ℚ} :
    a ∈ l.foldl (fun acc x => insertScore x acc) acc ↔ a ∈ acc ∨ a ∈ l := by
  induction l generalizing acc with
  | nil => simp
  | cons x xs ih =>
    simp only [List.foldl_cons, ih, mem_insertScore, List.mem_cons]
    tauto

theorem mem_argsortAsc {l : List (Nat × ℚ)} {a : Nat × ℚ} :
    a ∈ argsortAsc l ↔ a ∈ l := by
  unfold argsortAsc
  rw [mem_foldl_insertScore]
  simp

theorem pairwise_insertScore {x : Nat × ℚ} {l : List (Nat × ℚ)}
    (hl : l.Pairwise rankOrd) (hx : ∀ y ∈ l, y.1 < x.1) :
    (insertScore x l).Pairwise rankOrd := by
  induction l with
  | nil => simp [insertScore]
  | cons y ys ih =>
    rcases List.pairwise_cons.mp hl with ⟨hy, hys⟩
    by_cases h : x.2 < y.2
    · rw [insertScore, if_pos h]
      refine List.pairwise_cons.mpr ⟨?_, hl⟩
      intro z hz
      rcases List.mem_cons.mp hz with rfl | hz2
      · exact Or.inl h
      · rcases hy z hz2 with h1 | ⟨h1, _⟩
        · exact Or.inl (lt_trans h h1)
        · exact Or.inl (h1 ▸ h)
    · rw [insertScore, if_neg h]
      refine List.pairwise_cons.mpr
        ⟨?_, ih hys (fun z hz => hx z (List.mem_cons_of_mem _ hz))⟩
      intro z hz
      rcases mem_insertScore.mp hz with rfl | hz2
      · rcases lt_or_eq_of_le (le_of_not_lt h) with h2 | h2
        · exact Or.inl h2
        · exact Or.inr ⟨h2, hx y (List.mem_cons_self y ys)⟩
      · exact hy z hz2

theorem pairwise_foldl_insertScore {l acc : List (Nat × ℚ)}
    (hacc : acc.Pairwise rankOrd)
    (hsep : ∀ y ∈ acc, ∀ x ∈ l, y.1 < x.1)
    (hl : l.Pairwise (fun a b => a.1 < b.1)) :
    (l.foldl (fun acc x => insertScore x acc) acc).Pairwise rankOrd := by
  induction l generalizing acc with
  | nil => simpa using hacc
  | cons x xs ih =>
    rcases List.pairwise_cons.mp hl with ⟨hx, hxs⟩
    simp only [List.foldl_cons]
    refine ih (pairwise_insertScore hacc
        (fun y hy => hsep y hy x (List.mem_cons_self x xs))) ?_ hxs
    intro y hy z hz
    rcases mem_insertScore.mp hy with rfl | hy2
    · exact hx z hz
    · exact hsep y hy2 z (List.mem_cons_of_mem _ hz)

theorem fst_ge_of_mem_enumFrom {α : Type} {z : Nat × α} {l : List α} {n : Nat}
    (h : z ∈ l.enumFrom n) : n ≤ z.1 := by
  induction l generalizing n with
  | nil => simp [List.enumFrom] at h
  | cons x xs ih =>
    rcases List.mem_cons.mp h with rfl | h2
    · exact le_refl n
    · exact le_trans (Nat.le_succ n) (ih h2)

theorem snd_mem_of_mem_enumFrom {α : Type} {z : Nat × α} {l : List α} {n : Nat}
    (h : z ∈ l.enumFrom n) : z.2 ∈ l := by
  induction l generalizing n with
  | nil => simp [List.enumFrom] at h
  | cons x xs ih =>
    rcases List.mem_cons.mp h with rfl | h2
    · exact List.mem_cons_self x xs
    · exact List.mem_cons_of_mem _ (ih h2)

theorem pairwise_fst_lt_enumFrom {α : Type} (l : List α) (n : Nat) :
    (l.enumFrom n).Pairwise (fun a b => a.1 < b.1) := by
  induction l generalizing n with
  | nil => simp [List.enumFrom]
  | cons x xs ih =>
    refine List.pairwise_cons.mpr ⟨?_, ih (n + 1)⟩
    intro z hz
    exact lt_of_lt_of_le (Nat.lt_succ_self n) (fst_ge_of_mem_enumFrom hz)

/-- The ranked result list is strictly ordered: descending by score, and
among equal scores by descending original row index. -/
theorem rank_pairwise (sims : List ℚ) (topN : Nat) :
    (rank sims topN).Pairwise (fun a b => rankOrd b a) := by
  have hcore : (argsortAsc sims.enum).Pairwise rankOrd := by
    refine pairwise_foldl_insertScore List.Pairwise.nil ?_ ?_
    · intro y hy
      simp at hy
    · exact pairwise_fst_lt_enumFrom sims 0
  have hrev : ((argsortAsc sims.enum).reverse).Pairwise (fun a b => rankOrd b a) :=
    List.pairwise_reverse.mpr hcore
  have htake := hrev.sublist (List.take_sublist topN _)
  exact htake.sublist (List.filter_sublist _)

/-- C3: for every similarity array the library produces (cosine similarities
of non-negative TF-IDF vectors all lie in [0,1], the hypothesis `h01`) and
every `topN`, the list built by lines 150-167 has at most `topN` entries,
every entry's score is strictly above the 0.01 threshold and lies in [0,1],
and a higher-scoring entry always precedes a lower-scoring one. -/
theorem C3_search_rank_properties (sims : List ℚ) (topN : Nat)
    (h01 : ∀ s ∈ sims, 0 ≤ s ∧ s ≤ 1) :
    (rank sims topN).length ≤ topN ∧
    (∀ x ∈ rank sims topN, mkRat 1 100 < x.2 ∧ 0 ≤ x.2 ∧ x.2 ≤ 1) ∧
    (rank sims topN).Pairwise (fun a b => b.2 ≤ a.2) := by
  refine ⟨?_, ?_, ?_⟩
  · calc (rank sims topN).length
        ≤ ((argsortAsc sims.enum).reverse.take topN).length :=
          List.length_filter_le _ _
      _ ≤ topN := by
          rw [List.length_take]
          exact min_le_left _ _
  · intro x hx
    have hthresh := List.of_mem_filter hx
    have hmem : x ∈ (argsortAsc sims.enum).reverse.take topN :=
      List.mem_of_mem_filter hx
    have hsort : x ∈ argsortAsc sims.enum :=
      List.mem_reverse.mp (List.mem_of_mem_take hmem)
    have hsims : x.2 ∈ sims := by
      have := mem_argsortAsc.mp hsort
      exact snd_mem_of_mem_enumFrom this
    rcases h01 _ hsims with ⟨h0, h1⟩
    exact ⟨of_decide_eq_true hthresh, h0, h1⟩
  · refine (rank_pairwise sims topN).imp ?_
    intro a b h
    rcases h with h1 | ⟨h1, _⟩
    · exact le_of_lt h1
    · exact le_of_eq h1

/-- Witness for C3: the theorem applied to the concrete similarity array
[1/2, 0, 1] with topN = 2. -/
theorem C3_search_rank_properties_witness :
    (rank [mkRat 1 2, (0 : ℚ), 1] 2).length ≤ 2 ∧
    (∀ x ∈ rank [mkRat 1 2, (0 : ℚ), 1] 2,
      mkRat 1 100 < x.2 ∧ 0 ≤ x.2 ∧ x.2 ≤ 1) ∧
    (rank [mkRat 1 2, (0 : ℚ), 1] 2).Pairwise (fun a b => b.2 ≤ a.2) :=
  C3_search_rank_properties [mkRat 1 2, 0, 1] 2 (by decide)

/-- C7 amended: among equal scores the returned order is the REVERSE of the
original row order, because the code ascending-argsorts (stably) and then
walks the ascending order backwards via the slice `[:-top_n - 1:-1]`. -/
theorem C7_ties_reverse_row_order (sims : List ℚ) (topN : Nat) :
    (rank sims topN).Pairwise (fun a b => a.2 = b.2 → b.1 < a.1) := by
  refine (rank_pairwise sims topN).imp ?_
  intro a b h heq
  rcases h with h1 | ⟨_, h2⟩
  · exact absurd (heq ▸ h1) (lt_irrefl _)
  · exact h2


/-! ## Lemmas about the digest table and the scan phase -/

theorem lookupKey_setKey_self {α β : Type} [DecidableEq α] (p : α) (v : β)
    (hs : List (α × β)) : lookupKey p (setKey p v hs) = some v := by
  induction hs with
  | nil => simp [setKey, lookupKey]
  | cons x t ih =>
    obtain ⟨q, w⟩ := x
    by_cases h : q = p
    · simp [setKey, lookupKey, h]
    · simp [setKey, lookupKey, h, ih]

theorem lookupKey_setKey_other {α β : Type} [DecidableEq α] {q p : α} (v : β)
    (hs : List (α × β)) (h : q ≠ p) :
    lookupKey q (setKey p v hs) = lookupKey q hs := by
  have hpq : ¬p = q := fun hh => h hh.symm
  induction hs with
  | nil =>
    simp only [setKey, lookupKey]
    rw [if_neg hpq]
  | cons x t ih =>
    obtain ⟨r, w⟩ := x
    simp only [setKey]
    by_cases hr : r = p
    · have hrq : ¬r = q := by rw [hr]; exact hpq
      rw [if_pos hr]
      simp only [lookupKey]
      rw [if_neg hrq, if_neg hrq]
    · rw [if_neg hr]
      simp only [lookupKey]
      by_cases hq : r = q
      · rw [if_pos hq, if_pos hq]
      · rw [if_neg hq, if_neg hq, ih]

theorem memKey_eq_true_iff {α : Type} [DecidableEq α] {p : α} {l : List α} :
    memKey p l = true ↔ p ∈ l := by
  induction l with
  | nil => simp [memKey]
  | cons q t ih =>
    simp only [memKey]
    by_cases h : q = p
    · rw [if_pos h]
      simp [h]
    · rw [if_neg h, ih]
      constructor
      · exact fun hp => List.mem_cons_of_mem _ hp
      · intro hp
        rcases List.mem_cons.mp hp with rfl | hp2
        · exact absurd rfl h
        · exact hp2

theorem lookupKey_filter {β : Type} (f : List Char → Bool) (p : List Char)
    (hs : List (List Char × β)) :
    lookupKey p (hs.filter (fun e => f e.1)) =
      if f p = true then lookupKey p hs else none := by
  induction hs with
  | nil => simp [lookupKey]
  | cons x t ih =>
    obtain ⟨q, w⟩ := x
    by_cases hq : q = p
    · subst hq
      by_cases hf : f q = true
      · simp [List.filter_cons, hf, lookupKey]
      · simp [List.filter_cons, hf, lookupKey, ih]
    · by_cases hf : f q = true
      · simp only [List.filter_cons, hf, if_true, lookupKey, if_neg hq]
        exact ih
      · simp only [List.filter_cons, hf]
        rw [if_neg (by simp)]
        rw [ih]
        by_cases hp : f p = true
        · rw [if_pos hp, if_pos hp]
          simp only [lookupKey, if_neg hq]
        · rw [if_neg hp, if_neg hp]

theorem lookupKey_eq_none_iff {α β : Type} [DecidableEq α] {p : α}
    {hs : List (α × β)} :
    lookupKey p hs = none ↔ p ∉ hs.map Prod.fst := by
  induction hs with
  | nil => simp [lookupKey]
  | cons x t ih =>
    obtain ⟨q, w⟩ := x
    simp only [lookupKey, List.map_cons, List.mem_cons]
    by_cases h : q = p
    · rw [if_pos h]
      constructor
      · intro hh
        exact absurd hh (by simp)
      · intro hh
        exact absurd (Or.inl h.symm) hh
    · rw [if_neg h, ih]
      constructor
      · intro hh hor
        rcases hor with rfl | hm
        · exact h rfl
        · exact hh hm
      · intro hh
        exact fun hm => hh (Or.inr hm)

theorem scanStep_of_unreadable {acc : List (List Char × List Char) × Bool}
    {e : FileEntry} (h : getFileHash e = none) : scanStep acc e = acc := by
  simp [scanStep, h]

theorem scanStep_lookup_other {acc : List (List Char × List Char) × Bool}
    {e : FileEntry} {p : List Char} (h : p ≠ e.path) :
    lookupKey p (scanStep acc e).1 = lookupKey p acc.1 := by
  rcases hge : getFileHash e with _ | hv
  · rw [scanStep_of_unreadable hge]
  · rcases hlk : lookupKey e.path acc.1 with _ | old
    · simp only [scanStep, hge, hlk]
      exact lookupKey_setKey_other hv acc.1 h
    · by_cases he : old = hv
      · simp [scanStep, hge, hlk, he]
      · simp only [scanStep, hge, hlk, if_neg he]
        exact lookupKey_setKey_other hv acc.1 h

theorem scanStep_of_synced {acc : List (List Char × List Char) × Bool}
    {e : FileEntry} {hv : List Char} (hge : getFileHash e = some hv)
    (hlk : lookupKey e.path acc.1 = some hv) : scanStep acc e = acc := by
  simp [scanStep, hge, hlk]

theorem foldl_scan_lookup_skip {w : List FileEntry}
    {acc : List (List Char × List Char) × Bool} {p : List Char}
    (h : ∀ f ∈ w, f.path = p → getFileHash f = none) :
    lookupKey p (w.foldl scanStep acc).1 = lookupKey p acc.1 := by
  induction w generalizing acc with
  | nil => rfl
  | cons f t ih =>
    rw [List.foldl_cons]
    rw [ih (fun g hg => h g (List.mem_cons_of_mem _ hg))]
    by_cases hp : p = f.path
    · rw [scanStep_of_unreadable (h f (List.mem_cons_self f t) hp.symm)]
    · exact scanStep_lookup_other hp

theorem foldl_scan_lookup_untouched {w : List FileEntry}
    {acc : List (List Char × List Char) × Bool} {p : List Char}
    (h : p ∉ w.map (fun f => f.path)) :
    lookupKey p (w.foldl scanStep acc).1 = lookupKey p acc.1 := by
  refine foldl_scan_lookup_skip ?_
  intro f hf hfp
  exact absurd (hfp ▸ List.mem_map_of_mem (fun f => f.path) hf) h

theorem foldl_scan_establishes {w : List FileEntry}
    (hnd : (w.map (fun f => f.path)).Nodup) :
    ∀ acc : List (List Char × List Char) × Bool, ∀ e ∈ w, ∀ c, e.content = some c →
      lookupKey e.path (w.foldl scanStep acc).1 = some (hashContent c) := by
  induction w with
  | nil =>
    intro acc e he
    simp at he
  | cons f t ih =>
    rw [List.map_cons] at hnd
    rcases List.nodup_cons.mp hnd with ⟨hf, ht⟩
    intro acc e he c hc
    rcases List.mem_cons.mp he with rfl | he2
    · rw [List.foldl_cons]
      have hge : getFileHash e = some (hashContent c) := by
        simp [getFileHash, hc]
      have hstep : lookupKey e.path (scanStep acc e).1 = some (hashContent c) := by
        rcases hlk : lookupKey e.path acc.1 with _ | old
        · simp only [scanStep, hge, hlk]
          exact lookupKey_setKey_self _ _ _
        · by_cases holdc : old = hashContent c
          · subst holdc
            rw [scanStep_of_synced hge hlk, hlk]
          · simp only [scanStep, hge, hlk, if_neg holdc]
            exact lookupKey_setKey_self _ _ _
      rw [foldl_scan_lookup_untouched hf, hstep]
    · rw [List.foldl_cons]
      exact ih ht (scanStep acc f) e he2 c hc

theorem foldl_scan_noop {w : List FileEntry}
    {hs : List (List Char × List Char)} {b : Bool}
    (h : ∀ e ∈ w, ∀ c, e.content = some c →
      lookupKey e.path hs = some (hashContent c)) :
    w.foldl scanStep (hs, b) = (hs, b) := by
  induction w with
  | nil => rfl
  | cons f t ih =>
    rw [List.foldl_cons]
    have hstep : scanStep (hs, b) f = (hs, b) := by
      rcases hc : f.content with _ | c
      · exact scanStep_of_unreadable (by simp [getFileHash, hc])
      · exact @scanStep_of_synced (hs, b) f (hashContent c) (by simp [getFileHash, hc])
          (h f (List.mem_cons_self f t) c hc)
    rw [hstep]
    exact ih (fun e he c hc => h e (List.mem_cons_of_mem _ he) c hc)

theorem mem_insertPath {p x : List Char} {l : List (List Char)} :
    p ∈ insertPath x l ↔ p = x ∨ p ∈ l := by
  induction l with
  | nil => simp [insertPath]
  | cons y ys ih =>
    by_cases h : pathLe x y
    · simp only [insertPath, if_pos h, List.mem_cons]
    · simp only [insertPath, if_neg h, List.mem_cons, ih]
      tauto

theorem mem_sortPaths {p : List Char} {l : List (List Char)} :
    p ∈ sortPaths l ↔ p ∈ l := by
  induction l with
  | nil => simp [sortPaths]
  | cons x xs ih =>
    simp only [sortPaths, List.foldr_cons] at *
    rw [mem_insertPath, ih]
    simp [List.mem_cons]


/-! ## Structural lemmas about `sync` -/

theorem syncScan_unfold (st : EngineState) (fs : FS) :
    syncScan st fs =
      ({ st with
          file_hashes :=
            (scanPhase st.file_hashes (walkFiles fs)).1.filter
              (fun e => memKey e.1 ((walkFiles fs).map (fun e => e.path))) },
       (scanPhase st.file_hashes (walkFiles fs)).2 ||
         (scanPhase st.file_hashes (walkFiles fs)).1.any
           (fun e => !(memKey e.1 ((walkFiles fs).map (fun e => e.path))))) := rfl

theorem sync_unfold (st : EngineState) (fs : FS) :
    sync st fs =
      (if (syncScan st fs).2 then
        match rebuildIndex (syncScan st fs).1 fs with
        | some st2 => (st2, some true)
        | none => ((syncScan st fs).1, none)
      else ((syncScan st fs).1, some false)) := rfl

theorem lookupKey_filter_memKey {β : Type} (cur : List (List Char))
    (p : List Char) (hs : List (List Char × β)) :
    lookupKey p (hs.filter (fun e => memKey e.1 cur)) =
      if memKey p cur = true then lookupKey p hs else none := by
  induction hs with
  | nil =>
    by_cases hp : memKey p cur = true
    · simp [lookupKey, hp]
    · simp [lookupKey, hp]
  | cons x t ih =>
    obtain ⟨q, w⟩ := x
    by_cases hq : q = p
    · subst hq
      by_cases hf : memKey q cur = true
      · simp [List.filter_cons, hf, lookupKey]
      · simp [List.filter_cons, hf, lookupKey, ih]
    · by_cases hf : memKey q cur = true
      · simp only [List.filter_cons, hf, if_true, lookupKey, if_neg hq]
        exact ih
      · simp only [List.filter_cons, hf]
        rw [if_neg (by simp)]
        rw [ih]
        by_cases hp : memKey p cur = true
        · rw [if_pos hp, if_pos hp]
          simp only [lookupKey, if_neg hq]
        · rw [if_neg hp, if_neg hp]

theorem rebuildIndex_file_hashes {st : EngineState} {fs : FS} {st2 : EngineState}
    (h : rebuildIndex st fs = some st2) : st2.file_hashes = st.file_hashes := by
  simp only [rebuildIndex] at h
  split at h
  · injection h with h2
    subst h2
    rfl
  · split at h
    · exact Option.noConfusion h
    · injection h with h2
      subst h2
      rfl

theorem rebuildIndex_idx {st : EngineState} {fs : FS} {st2 : EngineState}
    (h : rebuildIndex st fs = some st2) :
    st2.idx_to_filepath = [] ∨
      st2.idx_to_filepath =
        (sortPaths (st.file_hashes.map (fun e => e.1))).enum := by
  simp only [rebuildIndex] at h
  split at h
  · injection h with h2
    subst h2
    exact Or.inl rfl
  · split at h
    · exact Option.noConfusion h
    · injection h with h2
      subst h2
      exact Or.inr rfl

theorem sync_fst_file_hashes (st : EngineState) (fs : FS) :
    (sync st fs).1.file_hashes = (syncScan st fs).1.file_hashes := by
  rw [sync_unfold]
  by_cases hch : (syncScan st fs).2
  · rw [if_pos hch]
    rcases hrb : rebuildIndex (syncScan st fs).1 fs with _ | st2
    · rfl
    · exact rebuildIndex_file_hashes hrb
  · rw [if_neg hch]

/-- C2: calling `sync_index_with_filesystem` twice against the same
filesystem snapshot (no file changed between the calls) makes the second
call return `False` and leave the engine state — digest table, matrix, row
map and metadata — exactly as the first call left it.  The hypothesis says
the walk yields each path at most once, which any real directory walk
satisfies. -/
theorem C2_sync_idempotent (st : EngineState) (fs : FS)
    (hnd : ((walkFiles fs).map (fun e => e.path)).Nodup) :
    sync (sync st fs).1 fs = ((sync st fs).1, some false) := by
  have hfh : (sync st fs).1.file_hashes =
      (scanPhase st.file_hashes (walkFiles fs)).1.filter
        (fun e => memKey e.1 ((walkFiles fs).map (fun e => e.path))) := by
    rw [sync_fst_file_hashes]
    rfl
  have hsynced : ∀ e ∈ walkFiles fs, ∀ c, e.content = some c →
      lookupKey e.path (sync st fs).1.file_hashes = some (hashContent c) := by
    intro e he c hc
    rw [hfh,
      lookupKey_filter_memKey ((walkFiles fs).map (fun e => e.path)) e.path,
      if_pos (memKey_eq_true_iff.mpr (List.mem_map_of_mem _ he))]
    exact foldl_scan_establishes hnd _ e he c hc
  have hkeys : ∀ x ∈ (sync st fs).1.file_hashes,
      memKey x.1 ((walkFiles fs).map (fun e => e.path)) = true := by
    intro x hx
    rw [hfh] at hx
    simpa using List.of_mem_filter hx
  have hscan2 : scanPhase (sync st fs).1.file_hashes (walkFiles fs) =
      ((sync st fs).1.file_hashes, false) := foldl_scan_noop hsynced
  have hfilter : (sync st fs).1.file_hashes.filter
      (fun e => memKey e.1 ((walkFiles fs).map (fun e => e.path))) =
      (sync st fs).1.file_hashes := List.filter_eq_self.mpr hkeys
  have hany : (sync st fs).1.file_hashes.any
      (fun e => !(memKey e.1 ((walkFiles fs).map (fun e => e.path)))) = false := by
    rw [List.any_eq_false]
    intro x hx
    simp [hkeys x hx]
  have hss2 : syncScan (sync st fs).1 fs = ((sync st fs).1, false) := by
    rw [syncScan_unfold, hscan2]
    dsimp only
    rw [hfilter, hany]
    rfl
  rw [sync_unfold ((sync st fs).1) fs, hss2]
  rfl

/-- Witness for C2: two syncs of a concrete one-file corpus. -/
theorem C2_sync_idempotent_witness :
    sync
        (sync (initEngine (chars "vector_index.pkl"))
          { rootExists := true,
            files := [⟨chars "d/a.txt", some (chars "cat")⟩] }).1
        { rootExists := true,
          files := [⟨chars "d/a.txt", some (chars "cat")⟩] } =
      ((sync (initEngine (chars "vector_index.pkl"))
          { rootExists := true,
            files := [⟨chars "d/a.txt", some (chars "cat")⟩] }).1, some false) :=
  C2_sync_idempotent (initEngine (chars "vector_index.pkl"))
    { rootExists := true, files := [⟨chars "d/a.txt", some (chars "cat")⟩] }
    (by decide)

/-- C6 amended: a file whose hashing fails is skipped by change detection and
the cycle continues.  If the file has no previously recorded digest it gets
no digest entry and (when it had no row before) no row in the after-sync row
map.  But a previously indexed file that becomes unreadable keeps its stale
digest entry for the cycle: it is still collected into `current_files`
before hashing, so it is not treated as deleted, and the failed hash merely
skips the update. -/
theorem C6_unreadable_file_semantics (st : EngineState) (fs : FS)
    (e : FileEntry) (he : e ∈ walkFiles fs) (hc : e.content = none)
    (hnd : ((walkFiles fs).map (fun x => x.path)).Nodup) :
    (lookupKey e.path st.file_hashes = none →
       lookupKey e.path (sync st fs).1.file_hashes = none ∧
       (e.path ∉ st.idx_to_filepath.map Prod.snd →
         e.path ∉ (sync st fs).1.idx_to_filepath.map Prod.snd)) ∧
    (∀ d, lookupKey e.path st.file_hashes = some d →
       lookupKey e.path (sync st fs).1.file_hashes = some d) := by
  have hskip : ∀ f ∈ walkFiles fs, f.path = e.path → getFileHash f = none := by
    intro f hf hfp
    have hfe : f = e := List.inj_on_of_nodup_map hnd hf he hfp
    rw [hfe]
    simp [getFileHash, hc]
  have hmem : memKey e.path ((walkFiles fs).map (fun x => x.path)) = true :=
    memKey_eq_true_iff.mpr (List.mem_map_of_mem _ he)
  have h1 : (syncScan st fs).1.file_hashes =
      (scanPhase st.file_hashes (walkFiles fs)).1.filter
        (fun x => memKey x.1 ((walkFiles fs).map (fun x => x.path))) := rfl
  have hlk : lookupKey e.path (sync st fs).1.file_hashes =
      lookupKey e.path st.file_hashes := by
    rw [sync_fst_file_hashes, h1,
      lookupKey_filter_memKey ((walkFiles fs).map (fun x => x.path)) e.path,
      if_pos hmem]
    exact foldl_scan_lookup_skip hskip
  refine ⟨?_, ?_⟩
  · intro hnone
    refine ⟨by rw [hlk]; exact hnone, ?_⟩
    intro hidx
    have hnotkeys : e.path ∉ (syncScan st fs).1.file_hashes.map Prod.fst := by
      apply lookupKey_eq_none_iff.mp
      rw [← sync_fst_file_hashes, hlk]
      exact hnone
    rw [sync_unfold]
    by_cases hch : (syncScan st fs).2
    · rw [if_pos hch]
      rcases hrb : rebuildIndex (syncScan st fs).1 fs with _ | st2
      · exact hidx
      · dsimp only
        rcases rebuildIndex_idx hrb with h0 | hsorted
        · rw [h0]
          simp
        · rw [hsorted, List.enum_map_snd]
          intro hmem2
          exact hnotkeys (mem_sortPaths.mp hmem2)
    · rw [if_neg hch]
      exact hidx
  · intro d hd
    rw [hlk]
    exact hd

/-- Witness for C6: a new unreadable file `n.txt` next to a readable new
`b.txt`; after the sync the unreadable file has no digest entry. -/
theorem C6_unreadable_file_semantics_witness :
    lookupKey (chars "n.txt")
      (sync (initEngine (chars "v.pkl"))
        { rootExists := true,
          files := [⟨chars "n.txt", none⟩,
                    ⟨chars "b.txt", some (chars "dog")⟩] }).1.file_hashes = none :=
  ((C6_unreadable_file_semantics (initEngine (chars "v.pkl"))
      { rootExists := true,
        files := [⟨chars "n.txt", none⟩, ⟨chars "b.txt", some (chars "dog")⟩] }
      ⟨chars "n.txt", none⟩ (by decide) rfl (by decide)).1 (by decide)).1

/-! ## Lemmas about the snippet regex scan -/

theorem searchFrom_succ (text w : List Char) (p n : Nat) :
    searchFrom text w p (n + 1) =
      if matchAt text w p = true then some p else searchFrom text w (p + 1) n := rfl

theorem matchAt_false_of_gt_len {text w : List Char} {p : Nat}
    (h : text.length < p) : matchAt text w p = false := by
  have hle : ¬(p + w.length ≤ text.length) := by omega
  simp [matchAt, hle]

theorem searchFrom_some {text w : List Char} :
    ∀ {fuel p r : Nat}, searchFrom text w p fuel = some r →
      matchAt text w r = true ∧ p ≤ r ∧
        ∀ q, p ≤ q → q < r → matchAt text w q = false := by
  intro fuel
  induction fuel with
  | zero =>
    intro p r h
    exact Option.noConfusion h
  | succ n ih =>
    intro p r h
    rw [searchFrom_succ] at h
    by_cases hm : matchAt text w p = true
    · rw [if_pos hm] at h
      injection h with h2
      subst h2
      exact ⟨hm, le_refl p, fun q hq1 hq2 => absurd hq2 (not_lt.mpr hq1)⟩
    · rw [if_neg hm] at h
      rcases ih h with ⟨h1, h2, h3⟩
      refine ⟨h1, by omega, ?_⟩
      intro q hq1 hq2
      rcases Nat.eq_or_lt_of_le hq1 with rfl | hq3
      · simpa using hm
      · exact h3 q hq3 hq2

theorem searchFrom_finds {text w : List Char} {p : Nat}
    (hp : matchAt text w p = true) :
    ∀ fuel s, s ≤ p → p < s + fuel →
      (∀ q, s ≤ q → q < p → matchAt text w q = false) →
      searchFrom text w s fuel = some p := by
  intro fuel
  induction fuel with
  | zero =>
    intro s hs hlt
    omega
  | succ n ih =>
    intro s hs hlt hql
    by_cases hsp : s = p
    · subst hsp
      rw [searchFrom_succ, if_pos hp]
    · have hfalse : matchAt text w s = false :=
        hql s (le_refl s) (lt_of_le_of_ne hs hsp)
      rw [searchFrom_succ, if_neg (by simp [hfalse])]
      exact ih (s + 1) (by omega) (by omega) (fun q hq1 hq2 => hql q (by omega) hq2)

theorem findMatch_some_of {text w : List Char} {p : Nat}
    (hp : matchAt text w p = true)
    (hleast : ∀ q, q < p → matchAt text w q = false) :
    findMatch text w = some p := by
  have hplen : p ≤ text.length := by
    by_contra hgt
    rw [matchAt_false_of_gt_len (by omega)] at hp
    exact Bool.noConfusion hp
  exact searchFrom_finds hp (text.length + 1) 0 (Nat.zero_le p) (by omega)
    (fun q _ hq => hleast q hq)

theorem findMatch_none_of {text w : List Char}
    (h : ∀ q, q ≤ text.length → matchAt text w q = false) :
    findMatch text w = none := by
  rcases hfm : findMatch text w with _ | r
  · rfl
  · rcases searchFrom_some hfm with ⟨h1, -, -⟩
    by_cases hr : r ≤ text.length
    · rw [h r hr] at h1
      exact Bool.noConfusion h1
    · rw [matchAt_false_of_gt_len (by omega)] at h1
      exact Bool.noConfusion h1

theorem findSome?_append_none {α β : Type} {f : α → Option β} {pre rest : List α}
    (h : ∀ a ∈ pre, f a = none) :
    (pre ++ rest).findSome? f = rest.findSome? f := by
  induction pre with
  | nil => rfl
  | cons a t ih =>
    rw [List.cons_append, List.findSome?_cons, h a (List.mem_cons_self a t),
      ih (fun b hb => h b (List.mem_cons_of_mem _ hb))]

/-- C9 amended: `_generate_snippet` scans the query terms in list order and
centers the excerpt on the leftmost occurrence of the FIRST term (in list
order) that matches anywhere — not on the earliest occurrence of any term —
with `windowLength/2` characters each side clipped to the text bounds and
ellipses exactly when the excerpt misses the start/end of the text; when no
term has a whole-word match the function returns the first `windowLength`
characters WITH a trailing ellipsis whenever that truncates the text. -/
theorem C9_snippet_characterization (text : List Char)
    (qws : List (List Char)) (L : Nat) :
    ((∀ w ∈ qws, ∀ q, q ≤ text.length → matchAt text w q = false) →
       generateSnippet text qws L =
         if L < text.length then text.take L ++ dots else text) ∧
    (∀ pre w post p, qws = pre ++ w :: post →
       (∀ w2 ∈ pre, ∀ q, q ≤ text.length → matchAt text w2 q = false) →
       matchAt text w p = true →
       (∀ q, q < p → matchAt text w q = false) →
       generateSnippet text qws L =
         (if 0 < p - L / 2 then dots else []) ++
           ((text.drop (p - L / 2)).take
             (min text.length (p + L / 2) - (p - L / 2))) ++
           (if min text.length (p + L / 2) < text.length then dots else [])) := by
  constructor
  · intro hnone
    have hfs : qws.findSome? (fun w => findMatch text w) = none := by
      have : qws = qws ++ [] := by simp
      rw [this, findSome?_append_none (fun a ha => findMatch_none_of (hnone a ha))]
      rfl
    rw [generateSnippet, hfs]
  · intro pre w post p hqws hpre hp hleast
    subst hqws
    have hw : findMatch text w = some p := findMatch_some_of hp hleast
    have hfs : ((pre ++ w :: post).findSome? (fun w => findMatch text w)) = some p := by
      rw [findSome?_append_none (fun a ha => findMatch_none_of (hpre a ha)),
        List.findSome?_cons, hw]
    rw [generateSnippet, hfs]
    dsimp only
    by_cases h1 : 0 < p - L / 2 <;>
      by_cases h2 : min text.length (p + L / 2) < text.length <;>
        simp [h1, h2, List.append_assoc]

/-- Witness for C9: text "ab cd" with terms ["zz", "cd"]; "zz" never matches,
"cd" first matches at position 3, and the theorem computes the snippet. -/
theorem C9_snippet_characterization_witness :
    generateSnippet (chars "ab cd") [chars "zz", chars "cd"] 2 =
      (if 0 < 3 - 2 / 2 then dots else []) ++
        (((chars "ab cd").drop (3 - 2 / 2)).take
          (min (chars "ab cd").length (3 + 2 / 2) - (3 - 2 / 2))) ++
        (if min (chars "ab cd").length (3 + 2 / 2) < (chars "ab cd").length
          then dots else []) :=
  (C9_snippet_characterization (chars "ab cd") [chars "zz", chars "cd"] 2).2
    [chars "zz"] (chars "cd") [] 3 rfl (by decide) (by decide) (by decide)
